import Mathlib

/-!
Shallow embedding of `src/unnamed/part_000` (CKEditor 5
`table/tablecolumnresize/utils`): the width-normalization utilities
(`toPrecision`, `clamp`, `sumArray`, `calculateMissingColumnWidths`,
`normalizeColumnWidths`), the column-index resolver (`getColumnIndex`)
and the affected-table locator (`getAffectedTables`).

JavaScript numbers are modelled by `JsNum`: `NaN`, the two infinities,
and finite values as exact rationals.  Finite floating-point arithmetic
is idealized as exact rational arithmetic; the special values `NaN`,
`Infinity` and `-Infinity` follow the IEEE rules used by JavaScript
(`0/0 = NaN`, `x/0 = ±Infinity` for `x ≠ 0`, `Infinity + -Infinity =
NaN`, comparisons with `NaN` are false, ...).

The constants imported from `./constants` (`COLUMN_WIDTH_PRECISION`,
`COLUMN_MIN_WIDTH_AS_PERCENTAGE`) are not among the provided source
files; they are modelled from the spec as parameters `prec` (number of
decimal digits retained) and `minPct` (the minimum column width as a
percentage), threaded through every definition.  Concrete instances in
the theorems below use the representative values `prec = 2` and
`minPct = 5`.
-/

/-- A JavaScript number: `NaN`, `Infinity`, `-Infinity`, or a finite
value (idealized as an exact rational). -/
inductive JsNum where
  | nan : JsNum
  | inf : JsNum
  | ninf : JsNum
  | num : ℚ → JsNum
deriving DecidableEq

/-- JavaScript `+` on numbers. -/
def jsAdd : JsNum → JsNum → JsNum
  | .nan, _ => .nan
  | _, .nan => .nan
  | .inf, .ninf => .nan
  | .ninf, .inf => .nan
  | .inf, _ => .inf
  | _, .inf => .inf
  | .ninf, _ => .ninf
  | _, .ninf => .ninf
  | .num a, .num b => .num (a + b)

/-- JavaScript unary `-` on numbers. -/
def jsNeg : JsNum → JsNum
  | .nan => .nan
  | .inf => .ninf
  | .ninf => .inf
  | .num a => .num (-a)

/-- JavaScript `-` on numbers. -/
def jsSub (a b : JsNum) : JsNum := jsAdd a (jsNeg b)

/-- JavaScript `*` on numbers. -/
def jsMul : JsNum → JsNum → JsNum
  | .nan, _ => .nan
  | _, .nan => .nan
  | .inf, .inf => .inf
  | .inf, .ninf => .ninf
  | .ninf, .inf => .ninf
  | .ninf, .ninf => .inf
  | .inf, .num b => if 0 < b then .inf else if b < 0 then .ninf else .nan
  | .num a, .inf => if 0 < a then .inf else if a < 0 then .ninf else .nan
  | .ninf, .num b => if 0 < b then .ninf else if b < 0 then .inf else .nan
  | .num a, .ninf => if 0 < a then .ninf else if a < 0 then .inf else .nan
  | .num a, .num b => .num (a * b)

/-- JavaScript `/` on numbers (division by zero yields an infinity or
`NaN`; the sign `-0` is identified with `0`). -/
def jsDiv : JsNum → JsNum → JsNum
  | .nan, _ => .nan
  | _, .nan => .nan
  | .inf, .inf => .nan
  | .inf, .ninf => .nan
  | .ninf, .inf => .nan
  | .ninf, .ninf => .nan
  | .inf, .num b => if 0 ≤ b then .inf else .ninf
  | .ninf, .num b => if 0 ≤ b then .ninf else .inf
  | .num _, .inf => .num 0
  | .num _, .ninf => .num 0
  | .num a, .num b =>
    if b = 0 then (if a = 0 then .nan else if 0 < a then .inf else .ninf)
    else .num (a / b)

/-- JavaScript `Math.round`: rounds half toward positive infinity. -/
def jsRound : JsNum → JsNum
  | .nan => .nan
  | .inf => .inf
  | .ninf => .ninf
  | .num q => .num (⌊q + 1/2⌋ : ℤ)

/-- JavaScript `<=` on numbers (false whenever `NaN` is involved). -/
def jsLe : JsNum → JsNum → Bool
  | .nan, _ => false
  | _, .nan => false
  | .ninf, _ => true
  | _, .inf => true
  | .inf, _ => false
  | _, .ninf => false
  | .num a, .num b => decide (a ≤ b)

/-- JavaScript `>=` on numbers. -/
def jsGe (a b : JsNum) : Bool := jsLe b a

/-- JavaScript `Math.max` of two numbers (`NaN` is absorbing). -/
def jsMax (a b : JsNum) : JsNum :=
  if a = .nan ∨ b = .nan then .nan
  else if jsLe a b then b else a

/-- A raw column width entry, i.e. a (trimmed) element of the
`columnWidths` attribute or an intermediate value of the pipeline:
either the literal string `"auto"`, or a value `x` standing for every
string/number on which JavaScript `parseFloat` yields `x` (an
unparseable string is `val .nan`, the strings `"Infinity"` /
`"-Infinity"` are `val .inf` / `val .ninf`). -/
inductive RawWidth where
  | auto : RawWidth
  | val : JsNum → RawWidth
deriving DecidableEq

/-- JavaScript `parseFloat` on a raw width (`"auto"` does not parse as
a number and yields `NaN`; on a number it round-trips exactly). -/
def RawWidth.parse : RawWidth → JsNum
  | .auto => .nan
  | .val x => x

/-- `toPrecision(value)` from the source: `parseFloat` the value, then
`Math.round(number * 10^prec) / 10^prec`, for a number argument. -/
def toPrecisionNum (prec : ℕ) (x : JsNum) : JsNum :=
  jsDiv (jsRound (jsMul x (.num ((10 : ℚ) ^ prec)))) (.num ((10 : ℚ) ^ prec))

/-- `toPrecision(value)` applied to a raw (string or number) value,
exactly as in the source: the argument is first parsed with
`parseFloat`. -/
def toPrecision (prec : ℕ) (w : RawWidth) : JsNum :=
  toPrecisionNum prec w.parse

/-- `clamp(number, min, max)` from the source: `min` if
`number <= min`, `max` if `number >= max`, otherwise `number`; every
branch goes through `toPrecision`. -/
def clamp (prec : ℕ) (number mn mx : JsNum) : JsNum :=
  if jsLe number mn then toPrecisionNum prec mn
  else if jsGe number mx then toPrecisionNum prec mx
  else toPrecisionNum prec number

/-- `sumArray(array)` from the source: map `parseFloat` over the
elements, drop the `NaN`s, and fold `+` starting from `0`. -/
def sumArray (l : List RawWidth) : JsNum :=
  ((l.map RawWidth.parse).filter (fun x => decide (x ≠ JsNum.nan))).foldl
    jsAdd (.num 0)

/-- `calculateMissingColumnWidths(columnWidthsAttribute)` from the
source.  `RawWidth` values stand for already-trimmed strings, so the
initial `.map(trim)` is the identity here.  If no entry is `'auto'`,
every entry is rounded; otherwise the fair share
`Math.max((100 - sumArray(columnWidths)) / numberOfUninitializedColumns,
COLUMN_MIN_WIDTH_AS_PERCENTAGE)` is substituted for every `'auto'`
entry and everything is rounded. -/
def calculateMissingColumnWidths (prec : ℕ) (minPct : ℚ)
    (columnWidthsAttribute : List RawWidth) : List RawWidth :=
  let columnWidths := columnWidthsAttribute
  let numberOfUninitializedColumns :=
    (columnWidths.filter (fun w => decide (w = RawWidth.auto))).length
  if numberOfUninitializedColumns = 0 then
    columnWidths.map (fun w => RawWidth.val (toPrecision prec w))
  else
    let totalWidthOfInitializedColumns := sumArray columnWidths
    let widthForUninitializedColumn :=
      jsMax
        (jsDiv (jsSub (.num 100) totalWidthOfInitializedColumns)
          (.num (numberOfUninitializedColumns : ℚ)))
        (.num minPct)
    (columnWidths.map
      (fun w => if w = RawWidth.auto then RawWidth.val widthForUninitializedColumn else w)).map
      (fun w => RawWidth.val (toPrecision prec w))

/-- `normalizeColumnWidths(columnWidths)` from the source: resolve the
missing widths, return as-is when the total is exactly `100`, and
otherwise rescale proportionally and absorb the rounding error into
the last column. -/
def normalizeColumnWidths (prec : ℕ) (minPct : ℚ)
    (columnWidths : List RawWidth) : List RawWidth :=
  let resolved := calculateMissingColumnWidths prec minPct columnWidths
  let totalWidth := sumArray resolved
  if totalWidth = JsNum.num 100 then resolved
  else
    let scaled := resolved.map (fun w =>
      RawWidth.val (toPrecisionNum prec (jsDiv (jsMul w.parse (.num 100)) totalWidth)))
    scaled.mapIdx (fun columnIndex w =>
      if columnIndex = scaled.length - 1 then
        RawWidth.val (toPrecisionNum prec
          (jsAdd w.parse (jsSub (.num 100) (sumArray scaled))))
      else w)

/-- JavaScript `Number#toString` on each entry of a normalized width
list, as in `normalizeColumnWidths(x).map(toString)`: stringifying a
finite number and re-parsing it yields the same value in this rational
model, and `"NaN"`, `"Infinity"`, `"-Infinity"` re-parse to the same
special values, so each entry is kept as is (the string `"auto"`
stringifies to itself as well). -/
def mapToString (l : List RawWidth) : List RawWidth :=
  l.map (fun w => match w with
    | RawWidth.auto => RawWidth.auto
    | RawWidth.val x => RawWidth.val x)

/-! ### Arithmetic helper lemmas for the fixed-point rounding -/

/-- The rational-level content of `toPrecision` on a finite value. -/
def toPrecQ (prec : ℕ) (q : ℚ) : ℚ := (⌊q * 10 ^ prec + 1/2⌋ : ℤ) / 10 ^ prec

/-- A rational is representable at `prec` decimal digits. -/
def IsFixed (prec : ℕ) (q : ℚ) : Prop := ∃ z : ℤ, q = (z : ℚ) / 10 ^ prec

theorem pow10_pos (prec : ℕ) : (0 : ℚ) < 10 ^ prec := by positivity

theorem pow10_ne_zero (prec : ℕ) : ((10 : ℚ) ^ prec) ≠ 0 := (pow10_pos prec).ne'

theorem toPrecisionNum_num (prec : ℕ) (q : ℚ) :
    toPrecisionNum prec (.num q) = .num (toPrecQ prec q) := by
  simp [toPrecisionNum, jsMul, jsRound, jsDiv, pow10_ne_zero prec, toPrecQ]

theorem toPrecQ_isFixed (prec : ℕ) (q : ℚ) : IsFixed prec (toPrecQ prec q) :=
  ⟨⌊q * 10 ^ prec + 1/2⌋, rfl⟩

theorem toPrecQ_eq_of_isFixed {prec : ℕ} {q : ℚ} (h : IsFixed prec q) :
    toPrecQ prec q = q := by
  obtain ⟨z, rfl⟩ := h
  have hP := pow10_ne_zero prec
  rw [toPrecQ, div_mul_cancel₀ _ hP]
  rw [add_comm, Int.floor_add_int]
  norm_num

theorem toPrecQ_idem (prec : ℕ) (q : ℚ) :
    toPrecQ prec (toPrecQ prec q) = toPrecQ prec q :=
  toPrecQ_eq_of_isFixed (toPrecQ_isFixed prec q)

theorem isFixed_intCast (prec : ℕ) (z : ℤ) : IsFixed prec (z : ℚ) :=
  ⟨z * 10 ^ prec, by field_simp⟩

theorem isFixed_ofNat (prec : ℕ) (n : ℕ) : IsFixed prec (n : ℚ) := by
  simpa using isFixed_intCast prec (n : ℤ)

theorem toPrecQ_intCast (prec : ℕ) (z : ℤ) : toPrecQ prec (z : ℚ) = z :=
  toPrecQ_eq_of_isFixed (isFixed_intCast prec z)

theorem toPrecQ_hundred (prec : ℕ) : toPrecQ prec 100 = 100 := by
  simpa using toPrecQ_intCast prec 100

theorem isFixed_add {prec : ℕ} {a b : ℚ} (ha : IsFixed prec a)
    (hb : IsFixed prec b) : IsFixed prec (a + b) := by
  obtain ⟨za, rfl⟩ := ha
  obtain ⟨zb, rfl⟩ := hb
  exact ⟨za + zb, by push_cast; ring⟩

theorem isFixed_neg {prec : ℕ} {a : ℚ} (ha : IsFixed prec a) :
    IsFixed prec (-a) := by
  obtain ⟨za, rfl⟩ := ha
  exact ⟨-za, by push_cast; ring⟩

theorem isFixed_sub {prec : ℕ} {a b : ℚ} (ha : IsFixed prec a)
    (hb : IsFixed prec b) : IsFixed prec (a - b) := by
  simpa [sub_eq_add_neg] using isFixed_add ha (isFixed_neg hb)

theorem isFixed_sum {prec : ℕ} {l : List ℚ} (h : ∀ q ∈ l, IsFixed prec q) :
    IsFixed prec l.sum := by
  induction l with
  | nil => simpa using isFixed_ofNat prec 0
  | cons a t ih =>
    rw [List.sum_cons]
    exact isFixed_add (h a (by simp)) (ih fun q hq => h q (by simp [hq]))

theorem toPrecQ_mono (prec : ℕ) {a b : ℚ} (h : a ≤ b) :
    toPrecQ prec a ≤ toPrecQ prec b := by
  have hmul : a * 10 ^ prec + 1/2 ≤ b * 10 ^ prec + 1/2 := by
    have := mul_le_mul_of_nonneg_right h (pow10_pos prec).le
    linarith
  have hfloor : ⌊a * 10 ^ prec + 1/2⌋ ≤ ⌊b * 10 ^ prec + 1/2⌋ :=
    Int.floor_le_floor hmul
  have : ((⌊a * 10 ^ prec + 1/2⌋ : ℤ) : ℚ) ≤ ((⌊b * 10 ^ prec + 1/2⌋ : ℤ) : ℚ) := by
    exact_mod_cast hfloor
  exact div_le_div_of_nonneg_right this (pow10_pos prec).le

theorem toPrecQ_nonneg {prec : ℕ} {q : ℚ} (h : 0 ≤ q) : 0 ≤ toPrecQ prec q := by
  have := toPrecQ_mono prec h
  rwa [show toPrecQ prec 0 = 0 by simpa using toPrecQ_intCast prec 0] at this

theorem toPrecisionNum_idem (prec : ℕ) (x : JsNum) :
    toPrecisionNum prec (toPrecisionNum prec x) = toPrecisionNum prec x := by
  cases x with
  | nan => rfl
  | inf =>
    simp [toPrecisionNum, jsMul, jsRound, jsDiv, pow10_pos prec, (pow10_pos prec).le]
  | ninf =>
    simp [toPrecisionNum, jsMul, jsRound, jsDiv, pow10_pos prec, (pow10_pos prec).le]
  | num q =>
    rw [toPrecisionNum_num, toPrecisionNum_num, toPrecQ_idem]

/-! ### List-level helper lemmas -/

/-- Every entry of the list is either the `'auto'` placeholder or a
finite numeric value. -/
def FiniteEntries (l : List RawWidth) : Prop :=
  ∀ w ∈ l, w = RawWidth.auto ∨ ∃ q : ℚ, w = RawWidth.val (JsNum.num q)

instance decidableFiniteEntry (w : RawWidth) :
    Decidable (w = RawWidth.auto ∨ ∃ q : ℚ, w = RawWidth.val (JsNum.num q)) :=
  match w with
  | RawWidth.auto => isTrue (Or.inl rfl)
  | RawWidth.val (JsNum.num q) => isTrue (Or.inr ⟨q, rfl⟩)
  | RawWidth.val JsNum.nan => isFalse (by rintro (h | ⟨q, h⟩) <;> simp_all)
  | RawWidth.val JsNum.inf => isFalse (by rintro (h | ⟨q, h⟩) <;> simp_all)
  | RawWidth.val JsNum.ninf => isFalse (by rintro (h | ⟨q, h⟩) <;> simp_all)

instance (l : List RawWidth) : Decidable (FiniteEntries l) :=
  List.decidableBAll _ l

theorem foldl_jsAdd_num (qs : List ℚ) (a : ℚ) :
    (qs.map JsNum.num).foldl jsAdd (.num a) = .num (a + qs.sum) := by
  induction qs generalizing a with
  | nil => simp
  | cons q t ih =>
    simp only [List.map_cons, List.foldl_cons, List.sum_cons, jsAdd, ih]
    ring_nf

/-- `sumArray` on a list of finite numbers is the exact rational sum. -/
theorem sumArray_map_num (qs : List ℚ) :
    sumArray (qs.map fun q => RawWidth.val (JsNum.num q)) = .num qs.sum := by
  unfold sumArray
  rw [List.map_map]
  have h1 : (qs.map (RawWidth.parse ∘ fun q => RawWidth.val (JsNum.num q)))
      = qs.map JsNum.num := by
    simp [Function.comp, RawWidth.parse]
  rw [h1]
  have h2 : (qs.map JsNum.num).filter (fun x => decide (x ≠ JsNum.nan))
      = qs.map JsNum.num := by
    refine List.filter_eq_self.mpr fun x hx => ?_
    obtain ⟨q, _, rfl⟩ := List.mem_map.mp hx
    simp
  rw [h2, foldl_jsAdd_num, zero_add]

/-- The finite value of an entry, `0` on `'auto'` and non-finite
values (only used under a `FiniteEntries` hypothesis). -/
def rawQ : RawWidth → Option ℚ
  | RawWidth.val (JsNum.num q) => some q
  | _ => none

/-- The exact sum of the finite entries of a raw width list. -/
def rawSumQ (l : List RawWidth) : ℚ := (l.filterMap rawQ).sum

theorem sumArray_of_finiteEntries {l : List RawWidth} (h : FiniteEntries l) :
    sumArray l = .num (rawSumQ l) := by
  have key : (l.map RawWidth.parse).filter (fun x => decide (x ≠ JsNum.nan))
      = (l.filterMap rawQ).map JsNum.num := by
    induction l with
    | nil => rfl
    | cons w t ih =>
      have hw := h w (by simp)
      have ht : FiniteEntries t := fun x hx => h x (by simp [hx])
      rcases hw with rfl | ⟨q, rfl⟩
      · simpa [RawWidth.parse, rawQ] using ih ht
      · simpa [RawWidth.parse, rawQ] using ih ht
  unfold sumArray rawSumQ
  rw [key, foldl_jsAdd_num, zero_add]

/-- The second `.map` callback of `normalizeColumnWidths` rewrites only
the last element of the array it iterates over. -/
theorem mapIdx_set_last {α : Type} (g : α → α) (l : List α) (a : α) :
    ((l ++ [a]).mapIdx fun i w => if i = (l ++ [a]).length - 1 then g w else w)
      = l ++ [g a] := by
  rw [List.mapIdx_append_one]
  congr 1
  · rw [List.mapIdx_eq_ofFn]
    have : (fun i : Fin l.length =>
        if (i : ℕ) = (l ++ [a]).length - 1 then g (l.get i) else l.get i)
        = fun i : Fin l.length => l.get i := by
      funext i
      have hi : (i : ℕ) < l.length := i.isLt
      rw [if_neg (by simp only [List.length_append, List.length_cons,
        List.length_nil]; omega)]
    rw [this]
    exact List.ofFn_get l
  · simp

/-! ### Computation lemmas on finite values -/

theorem jsAdd_num (a b : ℚ) : jsAdd (.num a) (.num b) = .num (a + b) := rfl

theorem jsMul_num (a b : ℚ) : jsMul (.num a) (.num b) = .num (a * b) := rfl

theorem jsSub_num (a b : ℚ) : jsSub (.num a) (.num b) = .num (a - b) := by
  simp [jsSub, jsAdd, jsNeg, sub_eq_add_neg]

theorem jsDiv_num (a : ℚ) {b : ℚ} (hb : b ≠ 0) :
    jsDiv (.num a) (.num b) = .num (a / b) := by
  simp [jsDiv, hb]

theorem jsMax_num (a b : ℚ) : jsMax (.num a) (.num b) = .num (max a b) := by
  by_cases h : a ≤ b
  · simp [jsMax, jsLe, h, max_eq_right h]
  · simp [jsMax, jsLe, h, max_eq_left (le_of_not_le h)]

/-! ### Structure of the resolved width lists -/

/-- The finite value of a raw width entry (`0` where not finite; this
is only used on entries known to be finite). -/
def entryQ (w : RawWidth) : ℚ :=
  match w.parse with
  | JsNum.num q => q
  | _ => 0

/-- Every entry of the list is a finite number (the shape of the lists
produced inside `calculateMissingColumnWidths` after the `'auto'`
substitution). -/
def AllNum (l : List RawWidth) : Prop :=
  ∀ w ∈ l, ∃ q : ℚ, w = RawWidth.val (JsNum.num q)

theorem round_map_shape (prec : ℕ) (l : List RawWidth) (h : AllNum l) :
    ∃ qs : List ℚ,
      l.map (fun w => RawWidth.val (toPrecision prec w))
          = qs.map (fun q => RawWidth.val (JsNum.num q)) ∧
        (∀ q ∈ qs, IsFixed prec q) ∧ qs.length = l.length := by
  refine ⟨l.map (fun w => toPrecQ prec (entryQ w)), ?_, ?_, by simp⟩
  · rw [List.map_map]
    refine List.map_congr_left fun w hw => ?_
    obtain ⟨q, rfl⟩ := h w hw
    simp only [Function.comp, toPrecision, RawWidth.parse, toPrecisionNum_num,
      entryQ]
  · intro q hq
    obtain ⟨w, -, rfl⟩ := List.mem_map.mp hq
    exact toPrecQ_isFixed ..

theorem calc_shape (prec : ℕ) (minPct : ℚ) {l : List RawWidth}
    (h : FiniteEntries l) :
    ∃ qs : List ℚ,
      calculateMissingColumnWidths prec minPct l
          = qs.map (fun q => RawWidth.val (JsNum.num q)) ∧
        (∀ q ∈ qs, IsFixed prec q) ∧ qs.length = l.length := by
  simp only [calculateMissingColumnWidths]
  by_cases hn : (l.filter fun w => decide (w = RawWidth.auto)).length = 0
  · rw [if_pos hn]
    refine round_map_shape prec l fun w hw => ?_
    rcases h w hw with rfl | hq
    · exact absurd (List.length_eq_zero.mp hn)
        (List.ne_nil_of_mem (List.mem_filter.mpr ⟨hw, by simp⟩))
    · exact hq
  · rw [if_neg hn]
    have hfin := sumArray_of_finiteEntries h
    rw [hfin]
    have hnq : ((l.filter fun w => decide (w = RawWidth.auto)).length : ℚ) ≠ 0 := by
      exact_mod_cast hn
    rw [jsSub_num, jsDiv_num _ hnq, jsMax_num]
    obtain ⟨qs, heq, hfix, hlen⟩ := round_map_shape prec (l.map fun w =>
      if w = RawWidth.auto
      then RawWidth.val (JsNum.num (max
        ((100 - rawSumQ l) / ((l.filter fun w => decide (w = RawWidth.auto)).length : ℚ))
        minPct))
      else w) (by
        intro w hw
        obtain ⟨u, hu, rfl⟩ := List.mem_map.mp hw
        rcases h u hu with rfl | ⟨q, rfl⟩
        · exact ⟨_, by rw [if_pos rfl]⟩
        · refine ⟨q, ?_⟩
          rw [if_neg (by simp)])
    exact ⟨qs, heq, hfix, by simpa using hlen⟩

theorem calc_eq_round_map (prec : ℕ) (minPct : ℚ) (l : List RawWidth) :
    ∃ l' : List RawWidth, l'.length = l.length ∧
      calculateMissingColumnWidths prec minPct l
        = l'.map fun w => RawWidth.val (toPrecision prec w) := by
  simp only [calculateMissingColumnWidths]
  by_cases hn : (l.filter fun w => decide (w = RawWidth.auto)).length = 0
  · rw [if_pos hn]
    exact ⟨l, rfl, rfl⟩
  · rw [if_neg hn]
    exact ⟨_, by simp, rfl⟩

theorem calc_mem_stable (prec : ℕ) (minPct : ℚ) (l : List RawWidth) :
    ∀ w ∈ calculateMissingColumnWidths prec minPct l,
      ∃ y, w = RawWidth.val y ∧ toPrecisionNum prec y = y := by
  obtain ⟨l', -, heq⟩ := calc_eq_round_map prec minPct l
  rw [heq]
  intro w hw
  obtain ⟨u, -, rfl⟩ := List.mem_map.mp hw
  exact ⟨toPrecision prec u, rfl, toPrecisionNum_idem ..⟩

theorem mem_mapIdx_set_last {α : Type} (g : α → α) (l : List α) (w : α)
    (hw : w ∈ l.mapIdx fun i x => if i = l.length - 1 then g x else x) :
    w ∈ l ∨ ∃ a ∈ l, w = g a := by
  rcases List.eq_nil_or_concat l with rfl | ⟨l', a, rfl⟩
  · simp [List.mapIdx_eq_ofFn] at hw
  · rw [List.concat_eq_append] at hw ⊢
    rw [mapIdx_set_last] at hw
    rcases List.mem_append.mp hw with h | h
    · exact Or.inl (List.mem_append.mpr (Or.inl h))
    · exact Or.inr ⟨a, by simp, by simpa using h⟩

theorem normalize_mem_stable (prec : ℕ) (minPct : ℚ) (l : List RawWidth) :
    ∀ w ∈ normalizeColumnWidths prec minPct l,
      ∃ y, w = RawWidth.val y ∧ toPrecisionNum prec y = y := by
  unfold normalizeColumnWidths
  by_cases h100 : sumArray (calculateMissingColumnWidths prec minPct l) = JsNum.num 100
  · rw [if_pos h100]
    exact calc_mem_stable prec minPct l
  · rw [if_neg h100]
    intro w hw
    rcases mem_mapIdx_set_last _ _ _ hw with h | ⟨a, -, rfl⟩
    · obtain ⟨u, -, rfl⟩ := List.mem_map.mp h
      exact ⟨_, rfl, toPrecisionNum_idem ..⟩
    · exact ⟨_, rfl, toPrecisionNum_idem ..⟩

/-! ### C1: the sum invariant of `normalizeColumnWidths` -/

/-- C1 (amended): for every finite non-negative raw width list of
length at least 1 (with zero or more `'auto'` entries) whose resolved,
rounded widths do not sum to `0`, the sum of the list returned by
`normalizeColumnWidths` equals exactly `100` after fixed-point
rounding.  (As stated, the claim fails on an all-zero list such as
`["0"]`, where the proportional rescale divides by a zero total and
produces `NaN`; see the counterexample.) -/
theorem normalizeColumnWidths_sum_100_of_resolved_ne_zero
    (prec : ℕ) (minPct : ℚ) (l : List RawWidth)
    (hl : ∀ w ∈ l, w = RawWidth.auto ∨
      ∃ q : ℚ, 0 ≤ q ∧ w = RawWidth.val (JsNum.num q))
    (hne : l ≠ [])
    (h0 : sumArray (calculateMissingColumnWidths prec minPct l) ≠ JsNum.num 0) :
    sumArray (normalizeColumnWidths prec minPct l) = JsNum.num 100 := by
  have hfe : FiniteEntries l := fun w hw =>
    (hl w hw).elim Or.inl fun ⟨q, _, hq⟩ => Or.inr ⟨q, hq⟩
  obtain ⟨qs, hcalc, hfix, hlen⟩ := calc_shape prec minPct hfe
  have hsum : sumArray (calculateMissingColumnWidths prec minPct l)
      = JsNum.num qs.sum := by
    rw [hcalc]; exact sumArray_map_num qs
  have hT : qs.sum ≠ 0 := fun h => h0 (by rw [hsum, h])
  simp only [normalizeColumnWidths]
  by_cases h100 :
      sumArray (calculateMissingColumnWidths prec minPct l) = JsNum.num 100
  · rw [if_pos h100]; exact h100
  · rw [if_neg h100]
    simp only [hcalc, sumArray_map_num]
    have hscaled : (qs.map fun q => RawWidth.val (JsNum.num q)).map
        (fun w => RawWidth.val (toPrecisionNum prec
          (jsDiv (jsMul w.parse (JsNum.num 100)) (JsNum.num qs.sum))))
        = (qs.map fun q => toPrecQ prec (q * 100 / qs.sum)).map
            fun q => RawWidth.val (JsNum.num q) := by
      rw [List.map_map, List.map_map]
      refine List.map_congr_left fun q _ => ?_
      simp only [Function.comp, RawWidth.parse, jsMul_num,
        jsDiv_num _ hT, toPrecisionNum_num]
    simp only [hscaled, sumArray_map_num]
    have hqs'fix : ∀ q ∈ (qs.map fun q => toPrecQ prec (q * 100 / qs.sum)),
        IsFixed prec q := by
      intro q hq
      obtain ⟨r, -, rfl⟩ := List.mem_map.mp hq
      exact toPrecQ_isFixed ..
    have hqs'ne : (qs.map fun q => toPrecQ prec (q * 100 / qs.sum)) ≠ [] := by
      intro hnil
      refine hne (List.length_eq_zero.mp ?_)
      rw [← hlen]
      simpa using congrArg List.length hnil
    rcases List.eq_nil_or_concat
        (qs.map fun q => toPrecQ prec (q * 100 / qs.sum)) with hnil |
        ⟨ys, b, hconcat⟩
    · exact absurd hnil hqs'ne
    rw [List.concat_eq_append] at hconcat
    have hysfix : ∀ q ∈ ys, IsFixed prec q := fun q hq =>
      hqs'fix q (by rw [hconcat]; exact List.mem_append.mpr (Or.inl hq))
    have hbfix : IsFixed prec b :=
      hqs'fix b (by rw [hconcat]; simp)
    simp only [hconcat, List.map_append, List.map_cons, List.map_nil,
      List.sum_append, List.sum_cons, List.sum_nil]
    rw [mapIdx_set_last
      (fun w => RawWidth.val (toPrecisionNum prec (jsAdd w.parse
        (jsSub (JsNum.num 100) (JsNum.num (ys.sum + (b + 0)))))))
      (ys.map fun q => RawWidth.val (JsNum.num q))
      (RawWidth.val (JsNum.num b))]
    simp only [RawWidth.parse, jsSub_num, jsAdd_num, toPrecisionNum_num]
    have hfixlast : IsFixed prec (b + (100 - (ys.sum + (b + 0)))) := by
      refine isFixed_add hbfix (isFixed_sub ?_
        (isFixed_add (isFixed_sum hysfix) (by simpa using hbfix)))
      simpa using isFixed_intCast prec 100
    rw [toPrecQ_eq_of_isFixed hfixlast]
    rw [show (ys.map fun q => RawWidth.val (JsNum.num q))
          ++ [RawWidth.val (JsNum.num (b + (100 - (ys.sum + (b + 0)))))]
        = (ys ++ [b + (100 - (ys.sum + (b + 0)))]).map
            fun q => RawWidth.val (JsNum.num q) by simp]
    rw [sumArray_map_num]
    simp only [List.sum_append, List.sum_cons, List.sum_nil]
    ring_nf

/-- C1 counterexample: the list `["0"]` is a finite non-negative raw
width list of length `1` with zero `'auto'` entries, yet
`normalizeColumnWidths(["0"])` is `[NaN]` (the rescale computes
`0 * 100 / 0 = NaN`), whose `sumArray` is `0`, not `100`. -/
theorem normalizeColumnWidths_zero_list_sum_ne_100 :
    normalizeColumnWidths 2 5 [RawWidth.val (JsNum.num 0)]
        = [RawWidth.val JsNum.nan] ∧
      sumArray (normalizeColumnWidths 2 5 [RawWidth.val (JsNum.num 0)])
        ≠ JsNum.num 100 :=
  ⟨by with_unfolding_all rfl, of_decide_eq_true (by with_unfolding_all rfl)⟩

/-- Witness for C1: the hypotheses of the amended sum-invariant theorem
are satisfied by the concrete list `["50"]`, and the theorem yields the
exact total `100` there. -/
theorem normalizeColumnWidths_sum_100_witness :
    sumArray (normalizeColumnWidths 2 5 [RawWidth.val (JsNum.num 50)])
      = JsNum.num 100 :=
  normalizeColumnWidths_sum_100_of_resolved_ne_zero 2 5
    [RawWidth.val (JsNum.num 50)]
    (by
      intro w hw
      simp only [List.mem_singleton] at hw
      exact hw ▸ Or.inr ⟨50, by norm_num, rfl⟩)
    (by simp)
    (of_decide_eq_true (by with_unfolding_all rfl))

/-! ### C2: idempotence of `normalizeColumnWidths` -/

theorem map_id_of_mem {α : Type} {l : List α} {f : α → α}
    (h : ∀ x ∈ l, f x = x) : l.map f = l := by
  induction l with
  | nil => rfl
  | cons a t ih =>
    simp only [List.map_cons, h a (by simp), List.cons.injEq, true_and]
    exact ih fun x hx => h x (by simp [hx])

theorem mapToString_eq_self (l : List RawWidth) : mapToString l = l := by
  refine map_id_of_mem fun w _ => ?_
  cases w <;> rfl

theorem calc_eq_self_of_stable (prec : ℕ) (minPct : ℚ) {r : List RawWidth}
    (h : ∀ w ∈ r, ∃ y, w = RawWidth.val y ∧ toPrecisionNum prec y = y) :
    calculateMissingColumnWidths prec minPct r = r := by
  have hnoauto : ∀ w ∈ r, ¬(w = RawWidth.auto) := by
    intro w hw heq
    obtain ⟨y, hy, -⟩ := h w hw
    rw [heq] at hy
    cases hy
  simp only [calculateMissingColumnWidths]
  rw [if_pos]
  · refine map_id_of_mem fun w hw => ?_
    obtain ⟨y, rfl, hst⟩ := h w hw
    simp only [toPrecision, RawWidth.parse, hst]
  · rw [List.length_eq_zero]
    exact List.filter_eq_nil_iff.mpr fun w hw => by simpa using hnoauto w hw

theorem normalize_eq_self_of (prec : ℕ) (minPct : ℚ) {r : List RawWidth}
    (hst : ∀ w ∈ r, ∃ y, w = RawWidth.val y ∧ toPrecisionNum prec y = y)
    (h100 : sumArray r = JsNum.num 100) :
    normalizeColumnWidths prec minPct r = r := by
  have hcalc := calc_eq_self_of_stable prec minPct hst
  simp only [normalizeColumnWidths, hcalc]
  rw [if_pos h100]

/-- C2 (amended): `normalizeColumnWidths` is idempotent on every input
whose first normalization sums exactly to `100` (in particular on
every input producing only finite widths):
`normalizeColumnWidths(normalizeColumnWidths(x).map(toString)) ==
normalizeColumnWidths(x)`.  (As stated — for every raw width list `x` —
the claim fails on inputs such as `["-5","5"]`, whose zero total makes
the rescale produce `-Infinity` and `NaN`; see the counterexample.) -/
theorem normalizeColumnWidths_idempotent_of_sum_100
    (prec : ℕ) (minPct : ℚ) (x : List RawWidth)
    (H : sumArray (normalizeColumnWidths prec minPct x) = JsNum.num 100) :
    normalizeColumnWidths prec minPct
        (mapToString (normalizeColumnWidths prec minPct x))
      = normalizeColumnWidths prec minPct x := by
  rw [mapToString_eq_self]
  exact normalize_eq_self_of prec minPct (normalize_mem_stable prec minPct x) H

/-- C2 counterexample: for `x = ["-5","5"]` the first normalization
returns `[-Infinity, NaN]` (total is `0`, so the rescale divides by
zero), and re-normalizing its stringified form returns `[NaN, NaN]`,
which differs — `normalizeColumnWidths` is not idempotent on every
input. -/
theorem normalizeColumnWidths_not_idempotent_on_cancelling_list :
    normalizeColumnWidths 2 5 (mapToString (normalizeColumnWidths 2 5
        [RawWidth.val (JsNum.num (-5)), RawWidth.val (JsNum.num 5)]))
      ≠ normalizeColumnWidths 2 5
        [RawWidth.val (JsNum.num (-5)), RawWidth.val (JsNum.num 5)] :=
  of_decide_eq_true (by with_unfolding_all rfl)

/-- Witness for C2: at `x = ["30","70"]` the first normalization sums
to `100`, and the amended idempotence theorem applies. -/
theorem normalizeColumnWidths_idempotent_witness :
    normalizeColumnWidths 2 5 (mapToString (normalizeColumnWidths 2 5
        [RawWidth.val (JsNum.num 30), RawWidth.val (JsNum.num 70)]))
      = normalizeColumnWidths 2 5
        [RawWidth.val (JsNum.num 30), RawWidth.val (JsNum.num 70)] :=
  normalizeColumnWidths_idempotent_of_sum_100 2 5
    [RawWidth.val (JsNum.num 30), RawWidth.val (JsNum.num 70)]
    (of_decide_eq_true (by with_unfolding_all rfl))

/-! ### C10: length preservation and placeholder elimination -/

theorem normalize_length (prec : ℕ) (minPct : ℚ) (l : List RawWidth) :
    (normalizeColumnWidths prec minPct l).length = l.length := by
  obtain ⟨l', hlen, heq⟩ := calc_eq_round_map prec minPct l
  have hcalclen : (calculateMissingColumnWidths prec minPct l).length
      = l.length := by
    rw [heq, List.length_map, hlen]
  simp only [normalizeColumnWidths]
  by_cases h100 :
      sumArray (calculateMissingColumnWidths prec minPct l) = JsNum.num 100
  · rw [if_pos h100]; exact hcalclen
  · rw [if_neg h100]
    rw [List.length_mapIdx, List.length_map, hcalclen]

/-- C10: for every input list, `normalizeColumnWidths` returns a list
of the same length as the input, and no element of the output is the
placeholder `"auto"`: every entry of the result is a number. -/
theorem normalizeColumnWidths_length_and_no_auto
    (prec : ℕ) (minPct : ℚ) (l : List RawWidth) :
    (normalizeColumnWidths prec minPct l).length = l.length ∧
      ∀ w ∈ normalizeColumnWidths prec minPct l,
        w ≠ RawWidth.auto ∧ ∃ y : JsNum, w = RawWidth.val y := by
  refine ⟨normalize_length prec minPct l, fun w hw => ?_⟩
  obtain ⟨y, rfl, -⟩ := normalize_mem_stable prec minPct l w hw
  exact ⟨by simp, y, rfl⟩

/-! ### C3: the fair share and the minimum-width floor -/

/-- The fair-share formula as the spec states it: `max((100 - sum of
the non-auto values) / number of placeholder entries,
COLUMN_MIN_WIDTH_AS_PERCENTAGE)` (for comparison with the value the
code substitutes). -/
def specFairShare (minPct : ℚ) (l : List RawWidth) : ℚ :=
  max ((100 - rawSumQ l)
    / ((l.filter fun w => decide (w = RawWidth.auto)).length : ℚ)) minPct

/-- C3: during placeholder resolution, every `"auto"` entry is replaced
by `max((100 - sum of the non-auto values) / number of "auto" entries,
COLUMN_MIN_WIDTH_AS_PERCENTAGE)` and then rounded, so no placeholder
column is assigned less than the minimum-width floor (the floor also
survives the rounding whenever the floor constant is representable at
the width precision, as the canonical `5` at two decimal digits is);
in particular `normalizeColumnWidths(["90","auto","auto"])` gives both
placeholder columns exactly the floor `5` and the output still sums to
`100`. -/
theorem calculateMissingColumnWidths_fair_share_floor :
    (∀ (prec : ℕ) (minPct : ℚ) (l : List RawWidth) (i : ℕ),
      FiniteEntries l → l[i]? = some RawWidth.auto →
        minPct ≤ specFairShare minPct l ∧
        (calculateMissingColumnWidths prec minPct l)[i]?
          = some (RawWidth.val (JsNum.num (toPrecQ prec (specFairShare minPct l)))) ∧
        (IsFixed prec minPct → minPct ≤ toPrecQ prec (specFairShare minPct l)))
    ∧ normalizeColumnWidths 2 5
        [RawWidth.val (JsNum.num 90), RawWidth.auto, RawWidth.auto]
        = [RawWidth.val (JsNum.num 90), RawWidth.val (JsNum.num 5),
           RawWidth.val (JsNum.num 5)]
    ∧ sumArray (normalizeColumnWidths 2 5
        [RawWidth.val (JsNum.num 90), RawWidth.auto, RawWidth.auto])
        = JsNum.num 100 := by
  refine ⟨?_, by with_unfolding_all rfl, by with_unfolding_all rfl⟩
  intro prec minPct l i hfe hi
  have hauto_mem : RawWidth.auto ∈ l := List.getElem?_mem hi
  have hn : (l.filter fun w => decide (w = RawWidth.auto)).length ≠ 0 := by
    intro h0
    exact absurd (List.length_eq_zero.mp h0)
      (List.ne_nil_of_mem (List.mem_filter.mpr ⟨hauto_mem, by simp⟩))
  have hnq : ((l.filter fun w => decide (w = RawWidth.auto)).length : ℚ) ≠ 0 := by
    exact_mod_cast hn
  refine ⟨le_max_right _ _, ?_, fun hfix => ?_⟩
  · simp only [calculateMissingColumnWidths]
    rw [if_neg hn, sumArray_of_finiteEntries hfe, jsSub_num, jsDiv_num _ hnq,
      jsMax_num]
    rw [List.getElem?_map, List.getElem?_map, hi]
    simp [toPrecision, RawWidth.parse, toPrecisionNum_num, specFairShare]
  · have := toPrecQ_mono prec (le_max_right
      ((100 - rawSumQ l)
        / ((l.filter fun w => decide (w = RawWidth.auto)).length : ℚ)) minPct)
    rwa [toPrecQ_eq_of_isFixed hfix] at this

/-- Witness for C3: the fair-share theorem applied to the placeholder
at index `1` of `["90","auto","auto"]` with the representative
constants: the substituted share is at least the floor `5`, and the
resolved entry equals the rounded share. -/
theorem calculateMissingColumnWidths_fair_share_floor_witness :
    (5 : ℚ) ≤ specFairShare 5
        [RawWidth.val (JsNum.num 90), RawWidth.auto, RawWidth.auto] ∧
      (calculateMissingColumnWidths 2 5
          [RawWidth.val (JsNum.num 90), RawWidth.auto, RawWidth.auto])[1]?
        = some (RawWidth.val (JsNum.num (toPrecQ 2 (specFairShare 5
            [RawWidth.val (JsNum.num 90), RawWidth.auto, RawWidth.auto])))) := by
  obtain ⟨h1, h2, -⟩ := calculateMissingColumnWidths_fair_share_floor.1 2 5
    [RawWidth.val (JsNum.num 90), RawWidth.auto, RawWidth.auto] 1
    (by decide) rfl
  exact ⟨h1, h2⟩

/-! ### C4: single-column normalization -/

theorem mapIdx_singleton {α β : Type} (f : ℕ → α → β) (x : α) :
    [x].mapIdx f = [f 0 x] := by
  have h := List.mapIdx_append_one f [] x
  rw [List.nil_append] at h
  rw [h]
  simp

theorem norm_of_calc_single (prec : ℕ) (minPct : ℚ) (l : List RawWidth)
    (t : ℚ)
    (h : calculateMissingColumnWidths prec minPct l
      = [RawWidth.val (JsNum.num t)])
    (ht : t ≠ 0) :
    normalizeColumnWidths prec minPct l = [RawWidth.val (JsNum.num 100)] := by
  have hsumt : sumArray [RawWidth.val (JsNum.num t)] = JsNum.num t := by
    simpa using sumArray_map_num [t]
  simp only [normalizeColumnWidths, h, hsumt]
  by_cases h100 : (JsNum.num t : JsNum) = JsNum.num 100
  · rw [if_pos h100]
    obtain rfl : t = 100 := by injection h100
    rfl
  · rw [if_neg h100]
    simp only [List.map_cons, List.map_nil, RawWidth.parse, jsMul_num,
      jsDiv_num _ ht, toPrecisionNum_num]
    rw [show t * 100 / t = 100 by rw [mul_comm, mul_div_assoc, div_self ht, mul_one]]
    rw [toPrecQ_hundred, mapIdx_singleton]
    have hsum100 : sumArray [RawWidth.val (JsNum.num 100)] = JsNum.num 100 := by
      simpa using sumArray_map_num [100]
    simp only [List.length_cons, List.length_nil, Nat.sub_self, if_pos rfl,
      hsum100, RawWidth.parse, jsSub_num, jsAdd_num, toPrecisionNum_num]
    rw [show (100 : ℚ) + (100 - 100) = 100 by ring, toPrecQ_hundred]
    simp

/-- C4 (amended): a single-column table normalizes to `[100]` whenever
its entry is `"auto"`, or is a value whose fixed-point rounding is
nonzero: `normalizeColumnWidths(["auto"]) == [100]` and
`normalizeColumnWidths(["37"]) == [100]` for every choice of the
constants.  (The unrestricted claim — every single-column table —
fails on `["0"]`, which normalizes to `[NaN]`; see the
counterexample.) -/
theorem normalizeColumnWidths_single_column :
    (∀ (prec : ℕ) (minPct : ℚ),
      normalizeColumnWidths prec minPct [RawWidth.auto]
        = [RawWidth.val (JsNum.num 100)]) ∧
    (∀ (prec : ℕ) (minPct : ℚ) (q : ℚ), toPrecQ prec q ≠ 0 →
      normalizeColumnWidths prec minPct [RawWidth.val (JsNum.num q)]
        = [RawWidth.val (JsNum.num 100)]) := by
  constructor
  · intro prec minPct
    have hsum0 : sumArray [RawWidth.auto] = JsNum.num 0 := rfl
    have hcalc : calculateMissingColumnWidths prec minPct [RawWidth.auto]
        = [RawWidth.val (JsNum.num (toPrecQ prec (max 100 minPct)))] := by
      simp only [calculateMissingColumnWidths]
      rw [if_neg (by simp), hsum0, jsSub_num, jsDiv_num _ (by simp), jsMax_num]
      norm_num [toPrecision, RawWidth.parse, toPrecisionNum_num]
    refine norm_of_calc_single prec minPct _ _ hcalc ?_
    have h100 : (100 : ℚ) ≤ toPrecQ prec (max 100 minPct) := by
      have := toPrecQ_mono prec (le_max_left (100 : ℚ) minPct)
      rwa [toPrecQ_hundred] at this
    intro h0
    rw [h0] at h100
    norm_num at h100
  · intro prec minPct q hq
    have hcalc : calculateMissingColumnWidths prec minPct
        [RawWidth.val (JsNum.num q)]
        = [RawWidth.val (JsNum.num (toPrecQ prec q))] := by
      simp only [calculateMissingColumnWidths]
      rw [if_pos (by simp)]
      simp only [List.map_cons, List.map_nil, toPrecision, RawWidth.parse,
        toPrecisionNum_num]
    exact norm_of_calc_single prec minPct _ _ hcalc hq

/-- C4 counterexample: the single-column table `["0"]` does not
normalize to `[100]` — the rescale divides by the zero total and the
result is `[NaN]`. -/
theorem normalizeColumnWidths_single_zero_not_100 :
    normalizeColumnWidths 2 5 [RawWidth.val (JsNum.num 0)]
      ≠ [RawWidth.val (JsNum.num 100)] :=
  of_decide_eq_true (by with_unfolding_all rfl)

/-- Witness for C4: the two instances named by the claim,
`["auto"]` and `["37"]`, via the amended theorem at the
representative constants. -/
theorem normalizeColumnWidths_single_column_witness :
    normalizeColumnWidths 2 5 [RawWidth.auto]
        = [RawWidth.val (JsNum.num 100)] ∧
      normalizeColumnWidths 2 5 [RawWidth.val (JsNum.num 37)]
        = [RawWidth.val (JsNum.num 100)] :=
  ⟨normalizeColumnWidths_single_column.1 2 5,
    normalizeColumnWidths_single_column.2 2 5 37
      (of_decide_eq_true (by with_unfolding_all rfl))⟩

/-! ### C8: `clamp` -/

/-- C8: `clamp(number, min, max)` returns `min` when `number <= min`,
`max` when (not below `min` and) `number >= max`, and `number`
otherwise, and in every branch the returned value is precision-rounded
via `toPrecision`; in particular `clamp(5, 10, 90) == 10`,
`clamp(95, 10, 90) == 90` and `clamp(50, 10, 90) == 50` for every
precision. -/
theorem clamp_branches :
    (∀ (prec : ℕ) (number mn mx : JsNum),
      (jsLe number mn = true →
        clamp prec number mn mx = toPrecisionNum prec mn) ∧
      (jsLe number mn = false → jsGe number mx = true →
        clamp prec number mn mx = toPrecisionNum prec mx) ∧
      (jsLe number mn = false → jsGe number mx = false →
        clamp prec number mn mx = toPrecisionNum prec number)) ∧
    (∀ prec : ℕ,
      clamp prec (JsNum.num 5) (JsNum.num 10) (JsNum.num 90)
          = JsNum.num 10 ∧
        clamp prec (JsNum.num 95) (JsNum.num 10) (JsNum.num 90)
          = JsNum.num 90 ∧
        clamp prec (JsNum.num 50) (JsNum.num 10) (JsNum.num 90)
          = JsNum.num 50) := by
  constructor
  · intro prec number mn mx
    refine ⟨fun h1 => ?_, fun h1 h2 => ?_, fun h1 h2 => ?_⟩
    · rw [clamp, if_pos h1]
    · rw [clamp, if_neg (by simp [h1]), if_pos h2]
    · rw [clamp, if_neg (by simp [h1]), if_neg (by simp [h2])]
  · intro prec
    have h10 : toPrecQ prec 10 = 10 :=
      toPrecQ_eq_of_isFixed (by simpa using isFixed_ofNat prec 10)
    have h90 : toPrecQ prec 90 = 90 :=
      toPrecQ_eq_of_isFixed (by simpa using isFixed_ofNat prec 90)
    have h50 : toPrecQ prec 50 = 50 :=
      toPrecQ_eq_of_isFixed (by simpa using isFixed_ofNat prec 50)
    refine ⟨?_, ?_, ?_⟩
    · rw [show clamp prec (JsNum.num 5) (JsNum.num 10) (JsNum.num 90)
          = toPrecisionNum prec (JsNum.num 10) from by
        simp only [clamp, jsLe]
        norm_num]
      rw [toPrecisionNum_num, h10]
    · rw [show clamp prec (JsNum.num 95) (JsNum.num 10) (JsNum.num 90)
          = toPrecisionNum prec (JsNum.num 90) from by
        simp only [clamp, jsLe, jsGe]
        norm_num]
      rw [toPrecisionNum_num, h90]
    · rw [show clamp prec (JsNum.num 50) (JsNum.num 10) (JsNum.num 90)
          = toPrecisionNum prec (JsNum.num 50) from by
        simp only [clamp, jsLe, jsGe]
        norm_num]
      rw [toPrecisionNum_num, h50]

/-- Witness for C8: the branch characterization applied at the claim's
own concrete inputs (precision `2`). -/
theorem clamp_branches_witness :
    clamp 2 (JsNum.num 95) (JsNum.num 10) (JsNum.num 90)
      = toPrecisionNum 2 (JsNum.num 90) :=
  (clamp_branches.1 2 (JsNum.num 95) (JsNum.num 10) (JsNum.num 90)).2.1
    (by simp only [jsLe]; norm_num)
    (by simp only [jsGe, jsLe]; norm_num)

/-! ### C9: `sumArray` -/

theorem filter_map_parse (l : List RawWidth) :
    (l.map RawWidth.parse).filter (fun x => decide (x ≠ JsNum.nan))
      = ((l.filter fun w => decide (RawWidth.parse w ≠ JsNum.nan)).map
          RawWidth.parse).filter (fun x => decide (x ≠ JsNum.nan)) := by
  induction l with
  | nil => rfl
  | cons w t ih =>
    by_cases hw : RawWidth.parse w = JsNum.nan
    · simpa [List.filter_cons, hw] using ih
    · simpa [List.filter_cons, hw] using ih

/-- C9: `sumArray` parses each element to a float, excludes every
element that fails to parse (`NaN`) from the sum (summing a list is
the same as summing its parseable entries), never raises (it is a
total function), and returns `0` for an empty or all-unparseable
input list; on all-finite input it returns the exact sum. -/
theorem sumArray_spec :
    sumArray [] = JsNum.num 0 ∧
    (∀ l : List RawWidth, (∀ w ∈ l, RawWidth.parse w = JsNum.nan) →
      sumArray l = JsNum.num 0) ∧
    (∀ l : List RawWidth,
      sumArray l
        = sumArray (l.filter fun w => decide (RawWidth.parse w ≠ JsNum.nan))) ∧
    (∀ qs : List ℚ,
      sumArray (qs.map fun q => RawWidth.val (JsNum.num q))
        = JsNum.num qs.sum) := by
  refine ⟨rfl, ?_, ?_, sumArray_map_num⟩
  · intro l h
    unfold sumArray
    rw [List.filter_eq_nil_iff.mpr ?_]
    · rfl
    · intro x hx
      obtain ⟨w, hw, rfl⟩ := List.mem_map.mp hx
      simp [h w hw]
  · intro l
    unfold sumArray
    rw [filter_map_parse]

/-- Witness for C9: the all-unparseable list `["auto", "abc"]` sums to
`0` by the theorem. -/
theorem sumArray_spec_witness :
    sumArray [RawWidth.auto, RawWidth.val JsNum.nan] = JsNum.num 0 :=
  sumArray_spec.2.1 [RawWidth.auto, RawWidth.val JsNum.nan] (by decide)

/-! ### C7: `getColumnIndex` -/

/-- A table cell as `getColumnIndex` sees it: only its `colspan`
attribute matters (`none` when the cell carries no such attribute). -/
structure TableCell where
  colspan : Option ℕ
deriving DecidableEq

/-- The result object `{leftEdge, rightEdge}` of `getColumnIndex`. -/
structure ColumnIndexes where
  leftEdge : ℕ
  rightEdge : ℕ
deriving DecidableEq

/-- `getColumnIndex(cell, columnIndexMap)` from the source:
`leftEdge` is `columnIndexMap.get(cell)` (`none` models `undefined`
when the cell is absent from the map), and the cell width is
`cell.getAttribute('colspan') || 1` — the JavaScript `|| 1` replaces
both a missing attribute and a falsy `0` by `1`. -/
def getColumnIndex (cell : TableCell)
    (columnIndexMap : TableCell → Option ℕ) : Option ColumnIndexes :=
  match columnIndexMap cell with
  | none => none
  | some cellColumnIndex =>
    let cellWidth : ℕ :=
      match cell.colspan with
      | none => 1
      | some c => if c = 0 then 1 else c
    some ⟨cellColumnIndex, cellColumnIndex + cellWidth - 1⟩

/-- C7: for every cell present in the column-index map,
`getColumnIndex` returns `leftEdge` equal to the map entry and
`rightEdge = leftEdge + colspan - 1`, where the colspan defaults to
`1` when the cell carries no `colspan` attribute; in particular a cell
mapped to index `2` with colspan `3` resolves to
`{leftEdge: 2, rightEdge: 4}`. -/
theorem getColumnIndex_edges :
    (∀ (cell : TableCell) (columnIndexMap : TableCell → Option ℕ) (i : ℕ),
      columnIndexMap cell = some i →
        (cell.colspan = none →
          getColumnIndex cell columnIndexMap = some ⟨i, i + 1 - 1⟩) ∧
        (∀ c : ℕ, cell.colspan = some c → 1 ≤ c →
          getColumnIndex cell columnIndexMap = some ⟨i, i + c - 1⟩)) ∧
    getColumnIndex ⟨some 3⟩
        (fun c => if c = ⟨some 3⟩ then some 2 else none)
      = some ⟨2, 4⟩ := by
  constructor
  · intro cell columnIndexMap i hmap
    constructor
    · intro hnone
      simp [getColumnIndex, hmap, hnone]
    · intro c hc h1
      have hc0 : ¬(c = 0) := by omega
      simp [getColumnIndex, hmap, hc, hc0]
  · rfl

/-- Witness for C7: the edge characterization applied to a cell with
colspan `3` mapped to column index `2`. -/
theorem getColumnIndex_edges_witness :
    getColumnIndex ⟨some 3⟩
        (fun c => if c = ⟨some 3⟩ then some 2 else none)
      = some ⟨2, 2 + 3 - 1⟩ :=
  (getColumnIndex_edges.1 ⟨some 3⟩
    (fun c => if c = ⟨some 3⟩ then some 2 else none) 2 rfl).2 3 rfl
    (by norm_num)

/-! ### The document model for `getAffectedTables` (C5, C6) -/

mutual
/-- A model-document node as `getAffectedTables` reads it: an element
with a name, a flag recording whether it carries the `columnWidths`
attribute (the only attribute the locator inspects), and its children;
or a text node. -/
inductive Node where
  | element : String → Bool → NodeList → Node
  | text : String → Node
/-- The ordered children of an element. -/
inductive NodeList where
  | nil : NodeList
  | cons : Node → NodeList → NodeList
end

mutual
def nodeDecEq : (a b : Node) → Decidable (a = b)
  | .text s, .text t =>
    match String.decEq s t with
    | isTrue h => isTrue (h ▸ rfl)
    | isFalse h => isFalse fun heq => h (by cases heq; rfl)
  | .text _, .element .. => isFalse (by intro h; cases h)
  | .element .., .text _ => isFalse (by intro h; cases h)
  | .element n1 c1 l1, .element n2 c2 l2 =>
    match String.decEq n1 n2, Bool.decEq c1 c2, nodeListDecEq l1 l2 with
    | isTrue h1, isTrue h2, isTrue h3 => isTrue (by rw [h1, h2, h3])
    | isFalse h1, _, _ => isFalse fun heq => h1 (by cases heq; rfl)
    | _, isFalse h2, _ => isFalse fun heq => h2 (by cases heq; rfl)
    | _, _, isFalse h3 => isFalse fun heq => h3 (by cases heq; rfl)
def nodeListDecEq : (a b : NodeList) → Decidable (a = b)
  | .nil, .nil => isTrue rfl
  | .nil, .cons .. => isFalse (by intro h; cases h)
  | .cons .., .nil => isFalse (by intro h; cases h)
  | .cons a as, .cons b bs =>
    match nodeDecEq a b, nodeListDecEq as bs with
    | isTrue h1, isTrue h2 => isTrue (by rw [h1, h2])
    | isFalse h1, _ => isFalse fun heq => h1 (by cases heq; rfl)
    | _, isFalse h2 => isFalse fun heq => h2 (by cases heq; rfl)
end

instance : DecidableEq Node := nodeDecEq

instance : DecidableEq NodeList := nodeListDecEq

/-- Builds the children sequence from a plain list. -/
def NodeList.ofList : List Node → NodeList
  | [] => .nil
  | c :: cs => .cons c (NodeList.ofList cs)

/-- Child at a given offset (`undefined` → `none` past the end). -/
def NodeList.get? : NodeList → ℕ → Option Node
  | .nil, _ => none
  | .cons c _, 0 => some c
  | .cons _ cs, n + 1 => NodeList.get? cs n

/-- `node.name` — text nodes carry no name (JavaScript `undefined`). -/
def Node.nameOf : Node → Option String
  | .element nm _ _ => some nm
  | .text _ => none

/-- `node.is('element') && node.name === 'table'`. -/
def Node.isTable : Node → Bool
  | .element nm _ _ => nm == "table"
  | .text _ => false

/-- `node.is('element') && node.name === 'table' &&
node.hasAttribute('columnWidths')`. -/
def Node.isTableWithWidths : Node → Bool
  | .element nm cw _ => nm == "table" && cw
  | .text _ => false

mutual
/-- `model.createRangeOn(node).getItems()`: the node itself followed
by every node nested in it, in document order. -/
def rangeItems : Node → List Node
  | .text s => [.text s]
  | .element nm cw cs => .element nm cw cs :: rangeItemsList cs
def rangeItemsList : NodeList → List Node
  | .nil => []
  | .cons c cs => rangeItems c ++ rangeItemsList cs
end

/-- The node reached from `root` by a path of child offsets. -/
def nodeAtPath : Node → List ℕ → Option Node
  | n, [] => some n
  | n, i :: rest =>
    match n with
    | .element _ _ cs =>
      match cs.get? i with
      | some c => nodeAtPath c rest
      | none => none
    | .text _ => none

/-- A model position is the path of child offsets from the root to its
parent element followed by its offset there; `position.nodeAfter` is
the child of the parent at that offset, or `none` (`null`). -/
def nodeAfter (root : Node) (p : List ℕ) : Option Node :=
  match p.getLast? with
  | none => none
  | some i =>
    match nodeAtPath root p.dropLast with
    | some (.element _ _ cs) => cs.get? i
    | _ => none

/-- The chain of nodes along a path, innermost first (the node at the
full path, then the node at each shorter prefix, ending at the root). -/
def chainDown : Node → List ℕ → List Node
  | n, [] => [n]
  | n, i :: rest =>
    match n with
    | Node.element nm cw cs =>
      (match cs.get? i with
       | some c => chainDown c rest
       | none => []) ++ [Node.element nm cw cs]
    | Node.text s => [Node.text s]

/-- `position.findAncestor('table')` for a position whose parent path
is `pp`: the innermost node named `table` among the position's parent
and its ancestors. -/
def findAncestorTable (root : Node) (pp : List ℕ) : Option Node :=
  (chainDown root pp).find? Node.isTable

/-- One change record from the document differ, as `getAffectedTables`
reads it: `insert`/`remove` carry the element name and the position,
an `attribute` change carries the start of its range. -/
inductive DiffItem where
  | insert : String → List ℕ → DiffItem
  | remove : String → List ℕ → DiffItem
  | attr : List ℕ → DiffItem
deriving DecidableEq

/-- The `switch (change.type)` of `getAffectedTables`: the reference
position of a change record, or `none` when the record is skipped.  A
`remove` of a whole `table` yields no reference position (#12201). -/
def referencePosition (root : Node) : DiffItem → Option (List ℕ)
  | .insert nm p =>
    if ["table", "tableRow", "tableCell"].contains nm then some p else none
  | .remove nm p =>
    if ["tableRow", "tableCell"].contains nm then some p else none
  | .attr rs =>
    match nodeAfter root rs with
    | none => none
    | some n =>
      match n.nameOf with
      | some nm =>
        if ["table", "tableRow", "tableCell"].contains nm then some rs
        else none
      | none => none

/-- `(referencePosition.nodeAfter && nodeAfter.name === 'table') ?
nodeAfter : referencePosition.findAncestor('table')`.  (When no
enclosing table exists the JavaScript would pass `undefined` to
`createRangeOn` and throw; this total model returns `none` and the
record contributes nothing — no claim exercises that path.) -/
def enclosingTable (root : Node) (p : List ℕ) : Option Node :=
  match nodeAfter root p with
  | some n => if n.isTable then some n else findAncestorTable root p.dropLast
  | none => findAncestorTable root p.dropLast

/-- `Set#add`: a JavaScript `Set` keeps insertion order and ignores an
element already present. -/
def addToSet (s : List Node) (n : Node) : List Node :=
  if n ∈ s then s else s ++ [n]

/-- The inner `for ... of model.createRangeOn(tableNode).getItems()`
loop: adds every table that carries `columnWidths` to the set. -/
def collectTables (acc : List Node) (items : List Node) : List Node :=
  items.foldl (fun s n => if n.isTableWithWidths then addToSet s n else s) acc

/-- `getAffectedTables(changes, model)` from the source: for each
change record, derive its reference position (or skip), resolve the
enclosing table, and collect every `columnWidths`-bearing table in its
range.  The returned set is modelled as its insertion-ordered list of
distinct elements. -/
def getAffectedTables (changes : List DiffItem) (root : Node) : List Node :=
  changes.foldl (fun acc c =>
    match referencePosition root c with
    | none => acc
    | some p =>
      match enclosingTable root p with
      | none => acc
      | some t => collectTables acc (rangeItems t)) []

theorem mem_addToSet (s : List Node) (n x : Node) :
    x ∈ addToSet s n ↔ x ∈ s ∨ x = n := by
  unfold addToSet
  by_cases h : n ∈ s
  · rw [if_pos h]
    constructor
    · exact Or.inl
    · rintro (hx | rfl)
      · exact hx
      · exact h
  · rw [if_neg h]
    simp

theorem mem_collectTables (items : List Node) (acc : List Node) (x : Node) :
    x ∈ collectTables acc items ↔
      x ∈ acc ∨ (x ∈ items ∧ x.isTableWithWidths = true) := by
  induction items generalizing acc with
  | nil => simp [collectTables]
  | cons n rest ih =>
    rw [show collectTables acc (n :: rest)
      = collectTables (if n.isTableWithWidths then addToSet acc n else acc)
          rest from rfl]
    rw [ih]
    by_cases hn : n.isTableWithWidths = true
    · rw [if_pos hn, mem_addToSet]
      constructor
      · rintro ((hx | rfl) | ⟨hx, hp⟩)
        · exact Or.inl hx
        · exact Or.inr ⟨List.mem_cons_self .., hn⟩
        · exact Or.inr ⟨List.mem_cons_of_mem _ hx, hp⟩
      · rintro (hx | ⟨hx, hp⟩)
        · exact Or.inl (Or.inl hx)
        · rcases List.mem_cons.mp hx with rfl | hx'
          · exact Or.inl (Or.inr rfl)
          · exact Or.inr ⟨hx', hp⟩
    · rw [if_neg hn]
      constructor
      · rintro (hx | ⟨hx, hp⟩)
        · exact Or.inl hx
        · exact Or.inr ⟨List.mem_cons_of_mem _ hx, hp⟩
      · rintro (hx | ⟨hx, hp⟩)
        · exact Or.inl hx
        · rcases List.mem_cons.mp hx with rfl | hx'
          · exact absurd hp hn
          · exact Or.inr ⟨hx', hp⟩

/-! ### C5: whole-table removal is excluded -/

/-- C5: a change-record batch whose only record is the removal of a
whole table (`remove` with element name `table`) yields an empty
affected-table set — the `remove` case only accepts `tableRow` and
`tableCell`, so no reference position is derived. -/
theorem getAffectedTables_remove_table_empty (root : Node) (p : List ℕ) :
    getAffectedTables [DiffItem.remove "table" p] root = [] := rfl

/-! ### C6: the inward walk over the enclosing table's range -/

/-- A nested demo table carrying `columnWidths`. -/
def demoInnerTable : Node := .element "table" true .nil

/-- An outer demo table carrying `columnWidths`, containing one row
with one cell holding the nested table. -/
def demoOuterTable : Node :=
  .element "table" true (NodeList.ofList
    [.element "tableRow" false (NodeList.ofList
      [.element "tableCell" false (NodeList.ofList [demoInnerTable])])])

/-- A demo document root holding the outer table. -/
def demoDoc : Node := .element "$root" false (NodeList.ofList [demoOuterTable])

/-- C6: for every change record that yields a reference position with
enclosing table `t`, `getAffectedTables` contains exactly the nodes of
`t`'s full range (the table itself and all nested tables at any depth)
that are tables carrying `columnWidths`; a table without the attribute
is never included.  In particular, inserting a row into an outer table
that contains a nested table surfaces both tables when both carry the
attribute. -/
theorem getAffectedTables_collects_tables_in_range :
    (∀ (root : Node) (c : DiffItem) (p : List ℕ) (t : Node),
      referencePosition root c = some p →
      enclosingTable root p = some t →
      ∀ x : Node, x ∈ getAffectedTables [c] root ↔
        x ∈ rangeItems t ∧ x.isTableWithWidths = true) ∧
    getAffectedTables [DiffItem.insert "tableRow" [0, 1]] demoDoc
      = [demoOuterTable, demoInnerTable] := by
  constructor
  · intro root c p t h1 h2 x
    have hred : getAffectedTables [c] root = collectTables [] (rangeItems t) := by
      simp [getAffectedTables, h1, h2]
    rw [hred, mem_collectTables]
    simp
  · rfl

/-- Witness for C6: inserting a row at offset `1` of the outer demo
table surfaces both the outer table and the nested table, each
carrying `columnWidths`, via the range characterization. -/
theorem getAffectedTables_collects_witness :
    demoOuterTable ∈ getAffectedTables [DiffItem.insert "tableRow" [0, 1]] demoDoc ∧
      demoInnerTable ∈ getAffectedTables [DiffItem.insert "tableRow" [0, 1]] demoDoc :=
  ⟨(getAffectedTables_collects_tables_in_range.1 demoDoc
      (DiffItem.insert "tableRow" [0, 1]) [0, 1] demoOuterTable rfl rfl
      demoOuterTable).mpr (by decide),
    (getAffectedTables_collects_tables_in_range.1 demoDoc
      (DiffItem.insert "tableRow" [0, 1]) [0, 1] demoOuterTable rfl rfl
      demoInnerTable).mpr (by decide)⟩
